import Mathlib

set_option autoImplicit false

/-!
Verification of the credential-custody core of a browser wallet client.

The development shallowly embeds the wallet library (`lib/wallet.ts`) and the
transfer form logic (`SendTokensForm.tsx` / `App.tsx`) of the repository.

Modelling conventions:

* Machine bytes are `Fin 256`; a `Uint8Array` is a `List (Fin 256)`.
* Browser / platform primitives that the repository calls but does not
  implement (`crypto.subtle` PBKDF2 key derivation and AES-GCM, `btoa`/`atob`
  base64, `JSON.stringify`/`JSON.parse`, `TextEncoder`/`TextDecoder`) are
  collected in a `Platform` structure together with their documented
  contracts (determinism and collision-freeness of the KDF, round-trip and
  authenticated rejection of the AEAD, round-trip of base64 and of JSON
  serialization).  Repository functions are translated from the source and
  are parameterised by such a platform.  A concrete executable platform
  (`idealPlatform`) witnesses that the contracts are satisfiable.
* `crypto.getRandomValues` is modelled by passing the drawn random bytes as
  explicit arguments.
* Exceptions thrown by platform calls are modelled by `Option`/`Except`
  results.
-/

/-- Bytes of a `Uint8Array`. -/
abbrev Byte := Fin 256

/-- Source: `export type WalletSource = 'mnemonic' | 'privateKey'`. -/
inductive WalletSource where
  | mnemonic
  | privateKey
deriving DecidableEq, Repr

/-- Source: `interface StoredSecrets { mnemonic?: string; privateKeyHex?: string }`. -/
structure StoredSecrets where
  mnemonic : Option String
  privateKeyHex : Option String
deriving DecidableEq, Repr

/-- Source: `interface EncryptedWalletShape` of `lib/wallet.ts` (`part_006`):
address, type, and the base64-encoded ciphertext, iv and salt. -/
structure EncryptedWalletShape where
  address : String
  type : WalletSource
  ciphertext : String
  iv : String
  salt : String
deriving DecidableEq, Repr

/-- Binary string built from bytes one character per byte; this is the loop
`buffer.forEach(byte => binary += String.fromCharCode(byte))` inside
`bufferToBase64`. -/
def binaryOfBytes (bs : List Byte) : String :=
  String.mk (bs.map fun b => Char.ofNat b.val)

/-- Byte extraction `buffer[i] = binary.charCodeAt(i)` of `base64ToBuffer`;
assignment into a `Uint8Array` truncates the char code modulo 256. -/
def bytesOfBinary (s : String) : List Byte :=
  s.data.map fun c => ⟨c.toNat % 256, Nat.mod_lt _ (by omega)⟩

/-- Platform primitives used by `lib/wallet.ts`, together with their
documented contracts.  `Key` is the opaque `CryptoKey` type. -/
structure Platform where
  Key : Type
  /-- `deriveKey(password, salt)`: PBKDF2(SHA-256, 250000 iterations) key
  derivation via `crypto.subtle`; a pure function of `(password, salt)`
  (spec: "same (password, salt) always yields the same key").  The ideal
  (collision-free) model of the KDF is injective. -/
  deriveKey : String → List Byte → Key
  /-- `crypto.subtle.encrypt({name: 'AES-GCM', iv}, key, data)`. -/
  gcmEncrypt : Key → List Byte → List Byte → List Byte
  /-- `crypto.subtle.decrypt({name: 'AES-GCM', iv}, key, data)`; a rejected
  promise (failed authentication) is `none`. -/
  gcmDecrypt : Key → List Byte → List Byte → Option (List Byte)
  /-- `btoa`: base64 rendering of a latin-1 binary string. -/
  btoa : String → String
  /-- `atob`: base64 decoding; throws (`none`) on invalid input. -/
  atob : String → Option String
  /-- `encoder.encode(JSON.stringify(secrets))` for a `StoredSecrets` value. -/
  serializeSecrets : StoredSecrets → List Byte
  /-- `JSON.parse(decoder.decode(bytes))` read back as `StoredSecrets`;
  `none` when parsing throws. -/
  deserializeSecrets : List Byte → Option StoredSecrets
  /-- `JSON.stringify(payload)` for an `EncryptedWalletShape` (as written by
  `persistWallet`). -/
  stringifyShape : EncryptedWalletShape → String
  /-- `JSON.parse(stored) as EncryptedWalletShape` (as read by
  `getStoredWallet`); `none` when parsing throws.  The cast performs no
  validation, so this is an arbitrary partial inverse of `stringifyShape`. -/
  parseShape : String → Option EncryptedWalletShape
  /-- AEAD correctness: decrypting with the same key and nonce returns the
  plaintext. -/
  gcm_roundTrip : ∀ k iv pt, gcmDecrypt k iv (gcmEncrypt k iv pt) = some pt
  /-- AEAD authentication (ideal functionality): decryption under any key
  other than the encryption key fails. -/
  gcm_auth : ∀ k k' iv iv' pt, k ≠ k' → gcmDecrypt k' iv' (gcmEncrypt k iv pt) = none
  /-- Ideal KDF: distinct `(password, salt)` inputs give distinct keys. -/
  deriveKey_inj : ∀ p p' s s', deriveKey p s = deriveKey p' s' → p = p' ∧ s = s'
  /-- Base64 round-trip on latin-1 binary strings. -/
  atob_btoa : ∀ s, (∀ c ∈ s.data, c.toNat < 256) → atob (btoa s) = some s
  /-- JSON round-trip for the secrets payload (spec: "the serialization must
  be stable enough to round-trip byte-for-byte"). -/
  secrets_roundTrip : ∀ s, deserializeSecrets (serializeSecrets s) = some s
  /-- JSON round-trip for the persisted record. -/
  shape_roundTrip : ∀ r, parseShape (stringifyShape r) = some r
  /-- `JSON.stringify` of an object is never the empty string. -/
  stringifyShape_ne_empty : ∀ r, stringifyShape r ≠ ""

/-- Source: `bufferToBase64` of `lib/wallet.ts`. -/
def bufferToBase64 (P : Platform) (buffer : List Byte) : String :=
  P.btoa (binaryOfBytes buffer)

/-- Source: `base64ToBuffer` of `lib/wallet.ts`; `atob` throwing on invalid
base64 is modelled by `none`. -/
def base64ToBuffer (P : Platform) (value : String) : Option (List Byte) :=
  (P.atob value).map bytesOfBinary

/-- Source: `encryptSecrets(secrets, password, type, address)` of
`lib/wallet.ts`.  The two `crypto.getRandomValues` draws (the fresh 12-byte
`iv` and 16-byte `salt`) are passed explicitly. -/
def encryptSecrets (P : Platform) (iv salt : List Byte) (secrets : StoredSecrets)
    (password : String) (type : WalletSource) (address : String) : EncryptedWalletShape :=
  let key := P.deriveKey password salt
  let ciphertext := P.gcmEncrypt key iv (P.serializeSecrets secrets)
  { address := address
    type := type
    ciphertext := bufferToBase64 P ciphertext
    iv := bufferToBase64 P iv
    salt := bufferToBase64 P salt }

/-- Failure modes of `decryptSecrets`: `encodingError` models `atob`
throwing on malformed base64, `decryptionError` models `crypto.subtle.decrypt`
rejecting (authentication failure), `malformedSecret` models `JSON.parse`
throwing on the decrypted plaintext. -/
inductive DecryptError where
  | encodingError
  | decryptionError
  | malformedSecret
deriving DecidableEq, Repr

/-- Source: `decryptSecrets(payload, password)` of `lib/wallet.ts`. -/
def decryptSecrets (P : Platform) (payload : EncryptedWalletShape)
    (password : String) : Except DecryptError StoredSecrets :=
  match base64ToBuffer P payload.salt with
  | none => .error .encodingError
  | some salt =>
    match base64ToBuffer P payload.iv with
    | none => .error .encodingError
    | some iv =>
      match base64ToBuffer P payload.ciphertext with
      | none => .error .encodingError
      | some ciphertext =>
        let key := P.deriveKey password salt
        match P.gcmDecrypt key iv ciphertext with
        | none => .error .decryptionError
        | some decrypted =>
          match P.deserializeSecrets decrypted with
          | none => .error .malformedSecret
          | some secrets => .ok secrets

/-- Source: `export const STORAGE_KEY = 'plt_wallet_encrypted'` in `config.ts`. -/
def STORAGE_KEY : String := "plt_wallet_encrypted"

/-- Browser `localStorage`: a total map from keys to optional string values. -/
def LocalStorage := String → Option String

/-- `window.localStorage.setItem(key, value)`. -/
def setItem (key value : String) (σ : LocalStorage) : LocalStorage :=
  fun k => if k = key then some value else σ k

/-- Source: `getStoredWallet()` of `lib/wallet.ts`: reads the slot under
`STORAGE_KEY`; `if (!stored) return null` treats both a missing slot and the
(falsy) empty string as absent; `JSON.parse` failure is caught, logged and
returned as `null`. -/
def getStoredWallet (P : Platform) (σ : LocalStorage) : Option EncryptedWalletShape :=
  match σ STORAGE_KEY with
  | none => none
  | some stored =>
    if stored = "" then none
    else match P.parseShape stored with
      | some shape => some shape
      | none => none

/-- Source: `persistWallet(payload)` of `lib/wallet.ts`: writes
`JSON.stringify({...payload})` under the fixed `STORAGE_KEY` (the object
spread copies the record unchanged). -/
def persistWallet (P : Platform) (payload : EncryptedWalletShape)
    (σ : LocalStorage) : LocalStorage :=
  setItem STORAGE_KEY (P.stringifyShape payload) σ

/-! ### Helper lemmas about the binary-string conversions -/

theorem toNat_ofNat_valid {n : Nat} (h : Nat.isValidChar n) : (Char.ofNat n).toNat = n := by
  simp only [Char.ofNat, h, dif_pos]
  rfl

theorem bytesOfBinary_binaryOfBytes (bs : List Byte) :
    bytesOfBinary (binaryOfBytes bs) = bs := by
  induction bs with
  | nil => rfl
  | cons b t ih =>
    have hv : Nat.isValidChar b.val := Or.inl (by have := b.isLt; omega)
    simp only [binaryOfBytes, bytesOfBinary, List.map_cons] at ih ⊢
    rw [List.cons_eq_cons]
    constructor
    · apply Fin.ext
      show (Char.ofNat b.val).toNat % 256 = b.val
      rw [toNat_ofNat_valid hv]
      exact Nat.mod_eq_of_lt b.isLt
    · exact ih

theorem binaryOfBytes_latin1 (bs : List Byte) :
    ∀ c ∈ (binaryOfBytes bs).data, c.toNat < 256 := by
  intro c hc
  simp only [binaryOfBytes, List.mem_map] at hc
  obtain ⟨b, _, rfl⟩ := hc
  have hv : Nat.isValidChar b.val := Or.inl (by have := b.isLt; omega)
  rw [toNat_ofNat_valid hv]
  exact b.isLt

/-- Decoding a field written by `bufferToBase64` recovers the bytes. -/
theorem base64ToBuffer_bufferToBase64 (P : Platform) (bs : List Byte) :
    base64ToBuffer P (bufferToBase64 P bs) = some bs := by
  simp [base64ToBuffer, bufferToBase64,
    P.atob_btoa _ (binaryOfBytes_latin1 bs), bytesOfBinary_binaryOfBytes]

theorem binaryOfBytes_injective {a b : List Byte}
    (h : binaryOfBytes a = binaryOfBytes b) : a = b := by
  have := congrArg bytesOfBinary h
  rwa [bytesOfBinary_binaryOfBytes, bytesOfBinary_binaryOfBytes] at this

theorem bufferToBase64_injective (P : Platform) {a b : List Byte}
    (h : bufferToBase64 P a = bufferToBase64 P b) : a = b := by
  have ha := P.atob_btoa _ (binaryOfBytes_latin1 a)
  have hb := P.atob_btoa _ (binaryOfBytes_latin1 b)
  apply binaryOfBytes_injective
  have : P.atob (P.btoa (binaryOfBytes a)) = P.atob (P.btoa (binaryOfBytes b)) := by
    simpa [bufferToBase64] using congrArg P.atob h
  rw [ha, hb] at this
  exact Option.some_injective _ this

/-! ### Claim theorems about the cipher layer -/

/-- C1.  Round-trip: decrypting the record produced by `encryptSecrets` with
the same password returns the original secrets object, for every secrets
object, password, source kind and address (and every pair of drawn random
`iv`/`salt` values of the documented lengths). -/
theorem encrypt_decrypt_roundTrip (P : Platform) (iv salt : List Byte)
    (S : StoredSecrets) (password : String) (type : WalletSource) (address : String)
    (hiv : iv.length = 12) (hsalt : salt.length = 16) :
    decryptSecrets P (encryptSecrets P iv salt S password type address) password =
      .ok S := by
  simp [decryptSecrets, encryptSecrets, base64ToBuffer_bufferToBase64,
    P.gcm_roundTrip, P.secrets_roundTrip]

/-- C2.  Wrong-password rejection: decrypting an `encryptSecrets` record
with any password other than the one it was encrypted under fails with
`DecryptionError` (the AEAD authentication rejects; no other failure mode is
reached). -/
theorem wrong_password_decryptionError (P : Platform) (iv salt : List Byte)
    (S : StoredSecrets) (p₁ p₂ : String) (type : WalletSource) (address : String)
    (hne : p₁ ≠ p₂) :
    decryptSecrets P (encryptSecrets P iv salt S p₁ type address) p₂ =
      .error .decryptionError := by
  have hkey : P.deriveKey p₁ salt ≠ P.deriveKey p₂ salt := fun h =>
    hne (P.deriveKey_inj _ _ _ _ h).1
  simp [decryptSecrets, encryptSecrets, base64ToBuffer_bufferToBase64,
    P.gcm_auth _ _ _ _ _ hkey]

/-- C3.  Freshness: two `encryptSecrets` calls with identical secrets,
password, kind and address, but distinct drawn randomness, produce records
whose `ciphertext`, `iv` and `salt` fields all differ. -/
theorem encrypt_freshness (P : Platform) (iv₁ salt₁ iv₂ salt₂ : List Byte)
    (S : StoredSecrets) (password : String) (type : WalletSource) (address : String)
    (hiv : iv₁ ≠ iv₂) (hsalt : salt₁ ≠ salt₂) :
    (encryptSecrets P iv₁ salt₁ S password type address).ciphertext ≠
        (encryptSecrets P iv₂ salt₂ S password type address).ciphertext ∧
      (encryptSecrets P iv₁ salt₁ S password type address).iv ≠
        (encryptSecrets P iv₂ salt₂ S password type address).iv ∧
      (encryptSecrets P iv₁ salt₁ S password type address).salt ≠
        (encryptSecrets P iv₂ salt₂ S password type address).salt := by
  have hkey : P.deriveKey password salt₁ ≠ P.deriveKey password salt₂ := fun h =>
    hsalt (P.deriveKey_inj _ _ _ _ h).2
  refine ⟨fun h => ?_, fun h => hiv (bufferToBase64_injective P h),
    fun h => hsalt (bufferToBase64_injective P h)⟩
  have hc := bufferToBase64_injective P h
  have h₁ := P.gcm_roundTrip (P.deriveKey password salt₂) iv₂ (P.serializeSecrets S)
  rw [← hc] at h₁
  rw [P.gcm_auth _ _ _ _ _ hkey] at h₁
  exact Option.noConfusion h₁

/-! ### Claim theorems about the persistent store -/

/-- Shared fact: loading the store right after `persistWallet` wrote a record
returns exactly that record (no validation of any kind is applied to it). -/
theorem getStoredWallet_persistWallet (P : Platform) (r : EncryptedWalletShape)
    (σ : LocalStorage) : getStoredWallet P (persistWallet P r σ) = some r := by
  simp [getStoredWallet, persistWallet, setItem, P.stringifyShape_ne_empty,
    P.shape_roundTrip]

/-- C5.  Loading from the persistent store never throws: a missing slot and
the falsy empty string are reported as absent, a blob on which `JSON.parse`
throws is caught and reported as absent, and in every case the call
terminates with either a record or `null`. -/
theorem getStoredWallet_total (P : Platform) (σ : LocalStorage) :
    (σ STORAGE_KEY = none → getStoredWallet P σ = none) ∧
      (σ STORAGE_KEY = some "" → getStoredWallet P σ = none) ∧
      (∀ s, σ STORAGE_KEY = some s → P.parseShape s = none →
        getStoredWallet P σ = none) ∧
      (getStoredWallet P σ = none ∨ ∃ r, getStoredWallet P σ = some r) := by
  refine ⟨fun h => by simp [getStoredWallet, h],
    fun h => by simp [getStoredWallet, h],
    fun s hs hp => by simp [getStoredWallet, hs, hp],
    ?_⟩
  cases h : getStoredWallet P σ with
  | none => exact Or.inl rfl
  | some r => exact Or.inr ⟨r, rfl⟩

/-- C6 (amended).  `getStoredWallet` applies no iv/salt length validation:
whatever record the stored blob parses to is returned as-is, whether or not
its `iv` decodes to 12 bytes and its `salt` to 16 bytes. -/
theorem getStoredWallet_no_length_validation (P : Platform)
    (r : EncryptedWalletShape) (σ : LocalStorage) :
    getStoredWallet P (persistWallet P r σ) = some r :=
  getStoredWallet_persistWallet P r σ

/-- C10.  The store holds at most one record: `persistWallet` always writes
to the fixed `STORAGE_KEY`, so persisting `r₁` and then `r₂` (any two
records, regardless of their addresses) leaves exactly `r₂` in the slot, the
rest of storage untouched, and `getStoredWallet` (which takes no address)
returns the last-written record `r₂`. -/
theorem persistWallet_single_slot (P : Platform) (r₁ r₂ : EncryptedWalletShape)
    (σ : LocalStorage) :
    getStoredWallet P (persistWallet P r₂ (persistWallet P r₁ σ)) = some r₂ ∧
      persistWallet P r₂ (persistWallet P r₁ σ) STORAGE_KEY =
        some (P.stringifyShape r₂) ∧
      ∀ k, k ≠ STORAGE_KEY →
        persistWallet P r₂ (persistWallet P r₁ σ) k = σ k := by
  refine ⟨getStoredWallet_persistWallet P r₂ _, by simp [persistWallet, setItem],
    fun k hk => by simp [persistWallet, setItem, hk]⟩

/-! ### A concrete platform

An executable instance of `Platform`, used by the witnesses below: the KDF is
the pair of its arguments, the AEAD tags the plaintext with an injective
encoding of the key, base64 is the identity, and the JSON codecs are
injective byte/string encoders with explicit parsers. -/

namespace Ideal

/-- Self-delimiting unary encoding of a natural number: `n` marker bytes
followed by a terminator. -/
def unaryEnc (n : Nat) : List Byte := List.replicate n 1 ++ [0]

/-- Parser for `unaryEnc`. -/
def parseUnary : List Byte → Option (Nat × List Byte)
  | [] => none
  | b :: rest =>
    if b = (0 : Byte) then some (0, rest)
    else if b = (1 : Byte) then
      match parseUnary rest with
      | some (n, r) => some (n + 1, r)
      | none => none
    else none

theorem parseUnary_enc (n : Nat) (rest : List Byte) :
    parseUnary (unaryEnc n ++ rest) = some (n, rest) := by
  induction n with
  | zero => simp [unaryEnc, parseUnary]
  | succ k ih =>
    have : unaryEnc (k + 1) ++ rest = 1 :: (unaryEnc k ++ rest) := by
      simp [unaryEnc, List.replicate_succ]
    rw [this, parseUnary, ih]
    simp

theorem parseUnary_length {l : List Byte} {n : Nat} {r : List Byte}
    (h : parseUnary l = some (n, r)) : r.length < l.length := by
  induction l generalizing n r with
  | nil => simp [parseUnary] at h
  | cons b rest ih =>
    rw [parseUnary] at h
    by_cases h0 : b = (0 : Byte)
    · simp [h0] at h
      simp [h.2]
    · by_cases h1 : b = (1 : Byte)
      · simp [h0, h1] at h
        match hrec : parseUnary rest with
        | none => rw [hrec] at h; simp at h
        | some (m, r') =>
          rw [hrec] at h
          simp at h
          have := ih hrec
          rw [h.2] at this
          simp only [List.length_cons]
          omega
      · simp [h0, h1] at h

/-- Length-prefixed encoding of a byte list. -/
def lenPref (b : List Byte) : List Byte := unaryEnc b.length ++ b

theorem parseUnary_lenPref (b rest : List Byte) :
    parseUnary (lenPref b ++ rest) = some (b.length, b ++ rest) := by
  rw [lenPref, List.append_assoc, parseUnary_enc]

/-- Injective byte encoding of a character list (one unary block per
character). -/
def listEnc : List Char → List Byte
  | [] => []
  | c :: t => unaryEnc c.toNat ++ listEnc t

/-- Fuelled parser for `listEnc` output (the fuel bounds the number of
characters still to read, keeping the recursion structural). -/
def strParseAllF : Nat → List Byte → Option (List Char)
  | _, [] => some []
  | 0, _ :: _ => none
  | fuel + 1, b :: t =>
    match parseUnary (b :: t) with
    | none => none
    | some (n, r) =>
      match strParseAllF fuel r with
      | none => none
      | some cs => some (Char.ofNat n :: cs)

/-- Full parser for `listEnc` output. -/
def strParseAll (l : List Byte) : Option (List Char) := strParseAllF l.length l

theorem strParseAllF_enc (fuel : Nat) (cs : List Char)
    (h : (listEnc cs).length ≤ fuel) : strParseAllF fuel (listEnc cs) = some cs := by
  induction fuel generalizing cs with
  | zero =>
    cases cs with
    | nil => rfl
    | cons c t => exfalso; simp [listEnc, unaryEnc] at h
  | succ fuel ih =>
    cases cs with
    | nil => rfl
    | cons c t =>
      have hcons : ∃ b bs, unaryEnc c.toNat ++ listEnc t = b :: bs := by
        cases hc : unaryEnc c.toNat ++ listEnc t with
        | nil => exfalso; simp [unaryEnc] at hc
        | cons b bs => exact ⟨b, bs, rfl⟩
      obtain ⟨b, bs, hb⟩ := hcons
      rw [listEnc, hb, strParseAllF, ← hb, parseUnary_enc]
      have hlen : (listEnc t).length ≤ fuel := by
        have := congrArg List.length hb
        simp [unaryEnc] at this
        rw [listEnc] at h
        simp [unaryEnc] at h
        omega
      simp only [ih t hlen, Char.ofNat_toNat]

theorem strParseAll_enc (cs : List Char) : strParseAll (listEnc cs) = some cs :=
  strParseAllF_enc _ cs le_rfl

/-- Length-prefixed encoding of a string. -/
def strField (s : String) : List Byte := lenPref (listEnc s.data)

/-- Parser for one `strField` block, returning the remaining input. -/
def parseStrField (l : List Byte) : Option (String × List Byte) :=
  match parseUnary l with
  | none => none
  | some (n, r) =>
    match strParseAll (r.take n) with
    | none => none
    | some cs => some (String.mk cs, r.drop n)

theorem string_mk_data (s : String) : String.mk s.data = s := by
  cases s
  rfl

theorem parseStrField_enc (s : String) (rest : List Byte) :
    parseStrField (strField s ++ rest) = some (s, rest) := by
  rw [strField, parseStrField, parseUnary_lenPref]
  simp only [List.take_left, List.drop_left, strParseAll_enc, string_mk_data]

/-- Keys of the concrete platform: the `(password, salt)` pair itself. -/
def WKey := String × List Byte

/-- Injective byte encoding of a key. -/
def wKeyEnc (k : WKey) : List Byte := strField k.1 ++ k.2

theorem wKeyEnc_inj {k k' : WKey} (h : wKeyEnc k = wKeyEnc k') : k = k' := by
  have h1 : parseStrField (wKeyEnc k) = some (k.1, k.2) := parseStrField_enc k.1 k.2
  have h2 : parseStrField (wKeyEnc k') = some (k'.1, k'.2) := parseStrField_enc k'.1 k'.2
  rw [h, h2] at h1
  simp only [Option.some_inj, Prod.mk.injEq] at h1
  exact Prod.ext h1.1.symm h1.2.symm

/-- Concrete AEAD encryption: the plaintext, length-prefixed, tagged with the
encoded key. -/
def wEnc (k : WKey) (iv pt : List Byte) : List Byte := lenPref pt ++ wKeyEnc k

/-- Concrete AEAD decryption: succeeds exactly when the tag matches the key. -/
def wDec (k : WKey) (iv ct : List Byte) : Option (List Byte) :=
  match parseUnary ct with
  | none => none
  | some (n, r) => if r.drop n = wKeyEnc k then some (r.take n) else none

theorem wDec_wEnc (k : WKey) (iv pt : List Byte) : wDec k iv (wEnc k iv pt) = some pt := by
  rw [wEnc, wDec, parseUnary_lenPref]
  simp [List.take_left, List.drop_left]

theorem wDec_wEnc_ne (k k' : WKey) (iv iv' pt : List Byte) (h : k ≠ k') :
    wDec k' iv' (wEnc k iv pt) = none := by
  rw [wEnc, wDec, parseUnary_lenPref]
  have hne : wKeyEnc k ≠ wKeyEnc k' := fun he => h (wKeyEnc_inj he)
  simp only [List.take_left, List.drop_left, if_neg hne]

/-- Byte encoding of an optional string. -/
def optEnc : Option String → List Byte
  | none => [2]
  | some s => 3 :: strField s

/-- Parser for `optEnc`. -/
def parseOptStr : List Byte → Option (Option String × List Byte)
  | [] => none
  | b :: r =>
    if b = (2 : Byte) then some (none, r)
    else if b = (3 : Byte) then
      match parseStrField r with
      | none => none
      | some (s, r') => some (some s, r')
    else none

theorem parseOptStr_enc (o : Option String) (rest : List Byte) :
    parseOptStr (optEnc o ++ rest) = some (o, rest) := by
  cases o with
  | none => simp [optEnc, parseOptStr]
  | some s => simp [optEnc, parseOptStr, parseStrField_enc]

/-- Concrete serialization of a `StoredSecrets` payload. -/
def secEnc (S : StoredSecrets) : List Byte := optEnc S.mnemonic ++ optEnc S.privateKeyHex

/-- Concrete parser for `secEnc`. -/
def secDec (l : List Byte) : Option StoredSecrets :=
  match parseOptStr l with
  | none => none
  | some (m, r) =>
    match parseOptStr r with
    | none => none
    | some (p, _) => some { mnemonic := m, privateKeyHex := p }

theorem secDec_secEnc (S : StoredSecrets) : secDec (secEnc S) = some S := by
  rw [secEnc, secDec, parseOptStr_enc]
  have h2 : parseOptStr (optEnc S.privateKeyHex) = some (S.privateKeyHex, []) := by
    have := parseOptStr_enc S.privateKeyHex []
    simpa using this
  simp only [h2]

/-- Tag byte for a `WalletSource`. -/
def typeTag : WalletSource → Byte
  | .mnemonic => 4
  | .privateKey => 5

/-- Concrete byte serialization of an `EncryptedWalletShape`. -/
def shapeEnc (r : EncryptedWalletShape) : List Byte :=
  typeTag r.type ::
    (strField r.address ++ (strField r.ciphertext ++ (strField r.iv ++ strField r.salt)))

/-- Concrete parser for `shapeEnc`. -/
def shapeDec (l : List Byte) : Option EncryptedWalletShape :=
  match l with
  | [] => none
  | t :: r =>
    match (if t = (4 : Byte) then some WalletSource.mnemonic
           else if t = (5 : Byte) then some WalletSource.privateKey else none) with
    | none => none
    | some ty =>
      match parseStrField r with
      | none => none
      | some (a, r₁) =>
        match parseStrField r₁ with
        | none => none
        | some (c, r₂) =>
          match parseStrField r₂ with
          | none => none
          | some (i, r₃) =>
            match parseStrField r₃ with
            | none => none
            | some (s, _) =>
              some { address := a, type := ty, ciphertext := c, iv := i, salt := s }

theorem parseStrField_encNil (s : String) : parseStrField (strField s) = some (s, []) := by
  simpa using parseStrField_enc s []

theorem typeTag_dec (t : WalletSource) :
    (if typeTag t = (4 : Byte) then some WalletSource.mnemonic
      else if typeTag t = (5 : Byte) then some WalletSource.privateKey else none) =
      some t := by
  cases t <;> simp [typeTag]

theorem shapeDec_shapeEnc (r : EncryptedWalletShape) : shapeDec (shapeEnc r) = some r := by
  rw [shapeEnc, shapeDec]
  simp only [typeTag_dec, parseStrField_enc, parseStrField_encNil]

end Ideal

/-- Concrete executable platform satisfying all the `Platform` contracts. -/
def idealPlatform : Platform where
  Key := Ideal.WKey
  deriveKey := fun p s => (p, s)
  gcmEncrypt := Ideal.wEnc
  gcmDecrypt := Ideal.wDec
  btoa := id
  atob := some
  serializeSecrets := Ideal.secEnc
  deserializeSecrets := Ideal.secDec
  stringifyShape := fun r => binaryOfBytes (Ideal.shapeEnc r)
  parseShape := fun s => Ideal.shapeDec (bytesOfBinary s)
  gcm_roundTrip := Ideal.wDec_wEnc
  gcm_auth := fun k k' iv iv' pt h => Ideal.wDec_wEnc_ne k k' iv iv' pt h
  deriveKey_inj := fun p p' s s' h => by
    exact ⟨congrArg Prod.fst h, congrArg Prod.snd h⟩
  atob_btoa := fun s _ => rfl
  secrets_roundTrip := Ideal.secDec_secEnc
  shape_roundTrip := fun r => by
    show Ideal.shapeDec (bytesOfBinary (binaryOfBytes (Ideal.shapeEnc r))) = some r
    rw [bytesOfBinary_binaryOfBytes, Ideal.shapeDec_shapeEnc]
  stringifyShape_ne_empty := fun r h => by
    have := congrArg String.data h
    simp [binaryOfBytes, Ideal.shapeEnc] at this

/-! ### Witnesses and counterexamples for the cipher and store claims -/

/-- C1 witness at a concrete input. -/
theorem encrypt_decrypt_roundTrip_witness :
    decryptSecrets idealPlatform
        (encryptSecrets idealPlatform (List.replicate 12 0) (List.replicate 16 0)
          { mnemonic := some "m", privateKeyHex := none } "pw" .mnemonic "addr") "pw" =
      .ok { mnemonic := some "m", privateKeyHex := none } :=
  encrypt_decrypt_roundTrip idealPlatform _ _ _ _ _ _ (by simp) (by simp)

/-- C2 witness at a concrete input. -/
theorem wrong_password_decryptionError_witness :
    decryptSecrets idealPlatform
        (encryptSecrets idealPlatform (List.replicate 12 0) (List.replicate 16 0)
          { mnemonic := some "m", privateKeyHex := none } "pw1" .mnemonic "addr") "pw2" =
      .error .decryptionError :=
  wrong_password_decryptionError idealPlatform _ _ _ _ _ _ _ (by decide)

/-- C3 witness at a concrete input. -/
theorem encrypt_freshness_witness :
    (encryptSecrets idealPlatform (List.replicate 12 0) (List.replicate 16 0)
          { mnemonic := some "m", privateKeyHex := none } "pw" .mnemonic "a").ciphertext ≠
        (encryptSecrets idealPlatform (List.replicate 12 1) (List.replicate 16 1)
          { mnemonic := some "m", privateKeyHex := none } "pw" .mnemonic "a").ciphertext ∧
      (encryptSecrets idealPlatform (List.replicate 12 0) (List.replicate 16 0)
          { mnemonic := some "m", privateKeyHex := none } "pw" .mnemonic "a").iv ≠
        (encryptSecrets idealPlatform (List.replicate 12 1) (List.replicate 16 1)
          { mnemonic := some "m", privateKeyHex := none } "pw" .mnemonic "a").iv ∧
      (encryptSecrets idealPlatform (List.replicate 12 0) (List.replicate 16 0)
          { mnemonic := some "m", privateKeyHex := none } "pw" .mnemonic "a").salt ≠
        (encryptSecrets idealPlatform (List.replicate 12 1) (List.replicate 16 1)
          { mnemonic := some "m", privateKeyHex := none } "pw" .mnemonic "a").salt :=
  encrypt_freshness idealPlatform _ _ _ _ _ _ _ _ (by decide) (by decide)

/-- C5 witness at concrete inputs: an empty store and a store holding the
falsy empty string. -/
theorem getStoredWallet_total_witness :
    getStoredWallet idealPlatform (fun _ => none) = none ∧
      getStoredWallet idealPlatform (setItem STORAGE_KEY "" (fun _ => none)) = none :=
  ⟨(getStoredWallet_total idealPlatform _).1 rfl,
    (getStoredWallet_total idealPlatform _).2.1 (by simp [setItem])⟩

/-- Record with an `iv` field that does not decode to 12 bytes. -/
def badIvRecord : EncryptedWalletShape :=
  { address := "a", type := .mnemonic, ciphertext := "c", iv := "AAAA", salt := "s" }

/-- C6 counterexample: a record whose `iv` field does not decode to 12 bytes
is nevertheless returned unchanged by a load — the length invariants are not
enforced by `getStoredWallet`. -/
theorem stored_record_invalid_iv_counterexample :
    getStoredWallet idealPlatform (persistWallet idealPlatform badIvRecord (fun _ => none)) =
      some badIvRecord ∧
      (base64ToBuffer idealPlatform badIvRecord.iv).map List.length ≠ some 12 :=
  ⟨getStoredWallet_persistWallet idealPlatform _ _, by decide⟩

/-- Records used by the C10 witness. -/
def sampleRecordA : EncryptedWalletShape :=
  { address := "a1", type := .mnemonic, ciphertext := "c1", iv := "i1", salt := "s1" }

/-- Second record used by the C10 witness, under a different address. -/
def sampleRecordB : EncryptedWalletShape :=
  { address := "a2", type := .privateKey, ciphertext := "c2", iv := "i2", salt := "s2" }

/-- C10 witness at concrete inputs: persisting two records with different
addresses leaves only the second one. -/
theorem persistWallet_single_slot_witness :
    getStoredWallet idealPlatform
        (persistWallet idealPlatform sampleRecordB
          (persistWallet idealPlatform sampleRecordA (fun _ => none))) =
      some sampleRecordB ∧
      persistWallet idealPlatform sampleRecordB
          (persistWallet idealPlatform sampleRecordA (fun _ => none)) "other_key" = none :=
  ⟨(persistWallet_single_slot idealPlatform _ _ _).1,
    (persistWallet_single_slot idealPlatform _ _ _).2.2 "other_key" (by decide)⟩

/-! ### Whitespace utilities shared by the address validator and the
mnemonic normalizer -/

/-- Whitespace test used to model the JavaScript whitespace class of
`String.prototype.trim` and the regex `\s` (restricted to the common ASCII
whitespace characters). -/
def isWs (c : Char) : Bool := c == ' ' || c == '\t' || c == '\n' || c == '\r'

/-- Removal of trailing whitespace. -/
def dropTrailWs (l : List Char) : List Char := (l.reverse.dropWhile isWs).reverse

/-- List-level model of `String.prototype.trim`. -/
def trimL (l : List Char) : List Char := dropTrailWs (l.dropWhile isWs)

/-- String-level model of `String.prototype.trim`. -/
def jsTrim (s : String) : String := String.mk (trimL s.data)

/-! ### Transfer form (`SendTokensForm.tsx`) -/

/-- Source: `export const ADDRESS_PREFIX = 'cosmos'` in `config.ts`. -/
def ADDRESS_PREFIX : String := "cosmos"

/-- Character class `[0-9a-z]` of the address regex. -/
def isAddrChar (c : Char) : Bool := ('0' ≤ c && c ≤ '9') || ('a' ≤ c && c ≤ 'z')

/-- Source: `isValidAddress` of `lib/wallet.ts`: tests the trimmed input
against `ADDRESS_REGEX`, i.e. the anchored regex
`^cosmos1[0-9a-z]{38,58}$` built from `ADDRESS_PREFIX`. -/
def isValidAddress (address : String) : Bool :=
  let t := (jsTrim address).data
  let pre := (ADDRESS_PREFIX ++ "1").data
  let rest := t.drop pre.length
  (t.take pre.length == pre) && rest.all isAddrChar &&
    decide (38 ≤ rest.length) && decide (rest.length ≤ 58)

/-- Source: `Math.round(x)` — round half towards positive infinity. -/
def jsRound (q : ℚ) : ℤ := ⌊q + 1 / 2⌋

/-- Source: `const DEFAULT_GAS_LIMIT = 200000` in `SendTokensForm.tsx`. -/
def DEFAULT_GAS_LIMIT : ℕ := 200000

/-- Component state of `SendTokensForm` relevant to preparing and sending
(the `destination`, `amountInput` and `memo` text fields are passed to the
handlers as the values they hold when the handler fires, and the `isSending`
re-entrancy latch is outside the scope of this single-threaded model).
`feeAmount` is the display-unit fee; JavaScript float division is idealised
as exact rational division. -/
structure SendFormState where
  error : Option String
  resultHash : Option String
  showConfirm : Bool
  feeAmount : ℚ
deriving DecidableEq

/-- Initial state of the form (`useState` initialisers). -/
def initialSendFormState : SendFormState :=
  { error := none, resultHash := none, showConfirm := false, feeAmount := 0 }

/-- Source: `prepareSend` of `SendTokensForm.tsx`.  `hasClient` is
`client && senderAddress`; `amountNumber` is the platform result of
`Number(amountInput)` (`none` for a non-finite result); `feeBase` is the
integer base-unit amount of the external `calculateFee(DEFAULT_GAS_LIMIT,
gasPrice)` result; `available` is `Number(balanceBaseAmount)` for the
integer balance string. -/
def prepareSend (st : SendFormState) (hasClient : Bool) (destination : String)
    (amountNumber : Option ℚ) (decimals : ℕ) (feeBase : ℕ) (available : ℤ) :
    SendFormState :=
  let st := { st with error := none, resultHash := none }
  if ¬hasClient then
    { st with error := some "Conectate y desbloqueá una wallet antes de enviar tokens." }
  else if ¬isValidAddress destination then
    { st with error := some "La dirección destino no tiene un formato válido." }
  else
    match amountNumber with
    | none => { st with error := some "Ingresá un monto numérico mayor a cero." }
    | some q =>
      if q ≤ 0 then { st with error := some "Ingresá un monto numérico mayor a cero." }
      else
        let amountBase := jsRound (q * 10 ^ decimals)
        let st := { st with feeAmount := (feeBase : ℚ) / 10 ^ decimals }
        if amountBase + (feeBase : ℤ) > available then
          { st with error := some "No hay saldo suficiente para cubrir el monto y las comisiones." }
        else { st with showConfirm := true }

/-- Result object of the external `client.sendTokens` broadcast
(`{code, transactionHash, rawLog}`). -/
structure DeliverTx where
  code : ℕ
  transactionHash : String
  rawLog : String
deriving DecidableEq

/-- Source: `handleSend` of `SendTokensForm.tsx`.  The argument `outcome` is
what the external `client.sendTokens` call produced: a result object, or a
thrown error (the `catch` branch), whose message we take already formatted.
The returned boolean records whether the broadcast call was issued.  On a
non-zero result code the error is surfaced with the code and raw log; on
success the confirmation box is dismissed and the form fields cleared. -/
def handleSend (st : SendFormState) (hasClient : Bool)
    (outcome : Except String DeliverTx) : SendFormState × Bool :=
  if ¬hasClient then (st, false)
  else
    let st := { st with error := none }
    match outcome with
    | .ok result =>
      if result.code ≠ 0 then
        ({ st with error := some ("No se pudo enviar la transacción. Código de error: " ++
            toString result.code ++ ". Mensaje: " ++ result.rawLog) }, true)
      else
        ({ st with
            resultHash := some result.transactionHash
            showConfirm := false
            feeAmount := 0 }, true)
    | .error msg =>
      ({ st with error := some ("No se pudo enviar la transacción. Mensaje: " ++ msg) }, true)

/-- User-interface events of the transfer form.  `confirmClick` carries the
outcome the external broadcast would produce when issued. -/
inductive FormEvent where
  | prepareClick (destination : String) (amountNumber : Option ℚ) (feeBase : ℕ)
      (available : ℤ)
  | confirmClick (outcome : Except String DeliverTx)
  | cancelClick
  | resetClick

/-- One step of the form.  The "Confirmar y enviar" button is rendered only
inside the `showConfirm` box, so a `confirmClick` in a state without
`showConfirm` is impossible and leaves the state unchanged; "Cancelar"
hides the box; "Reiniciar" is `resetState`.  The boolean records whether
this step issued the broadcast (`client.sendTokens`). -/
def stepForm (hasClient : Bool) (decimals : ℕ) (st : SendFormState) (e : FormEvent) :
    SendFormState × Bool :=
  match e with
  | .prepareClick d a f av => (prepareSend st hasClient d a decimals f av, false)
  | .confirmClick outcome =>
    if st.showConfirm then handleSend st hasClient outcome else (st, false)
  | .cancelClick => ({ st with showConfirm := false, feeAmount := 0 }, false)
  | .resetClick => (initialSendFormState, false)

/-- State reached after a sequence of events from the initial form state. -/
def runForm (hasClient : Bool) (decimals : ℕ) (evs : List FormEvent) : SendFormState :=
  evs.foldl (fun st e => (stepForm hasClient decimals st e).1) initialSendFormState

/-! ### C4: the insufficient-funds boundary -/

/-- C4.  Exact sufficiency boundary of `prepareSend`: with a connected
client, a valid destination and a positive amount, if
`amountBase + feeBase` equals the available balance `B` the form advances to
the confirmation step with no error, while if it equals `B + 1` the form
reports the insufficient-funds error and does not advance (a form starting
in the idle state stays idle). -/
theorem insufficient_funds_boundary (st : SendFormState) (dest : String) (q : ℚ)
    (decimals feeBase : ℕ) (B : ℤ)
    (hidle : st.showConfirm = false)
    (hdest : isValidAddress dest = true)
    (hq : 0 < q) :
    (jsRound (q * 10 ^ decimals) + (feeBase : ℤ) = B →
      (prepareSend st true dest (some q) decimals feeBase B).showConfirm = true ∧
        (prepareSend st true dest (some q) decimals feeBase B).error = none) ∧
    (jsRound (q * 10 ^ decimals) + (feeBase : ℤ) = B + 1 →
      (prepareSend st true dest (some q) decimals feeBase B).showConfirm = false ∧
        (prepareSend st true dest (some q) decimals feeBase B).error =
          some "No hay saldo suficiente para cubrir el monto y las comisiones.") := by
  have hnq : ¬(q ≤ 0) := not_le.mpr hq
  constructor
  · intro hB
    simp [prepareSend, hdest, hnq, hB]
  · intro hB
    simp [prepareSend, hdest, hnq, hB, hidle]

/-- C4 witness at concrete inputs: decimals 6, amount 1 (so
`amountBase = 1000000`), fee 5000 base units; balance `1005000` prepares,
balance `1004999` fails. -/
theorem insufficient_funds_boundary_witness :
    ((prepareSend initialSendFormState true "cosmos1qqqqqqqqqqqqqqqqqqqqqqqqqqqqqqqqqqqqqq"
        (some 1) 6 5000 1005000).showConfirm = true ∧
      (prepareSend initialSendFormState true "cosmos1qqqqqqqqqqqqqqqqqqqqqqqqqqqqqqqqqqqqqq"
        (some 1) 6 5000 1005000).error = none) ∧
    ((prepareSend initialSendFormState true "cosmos1qqqqqqqqqqqqqqqqqqqqqqqqqqqqqqqqqqqqqq"
        (some 1) 6 5000 1004999).showConfirm = false ∧
      (prepareSend initialSendFormState true "cosmos1qqqqqqqqqqqqqqqqqqqqqqqqqqqqqqqqqqqqqq"
        (some 1) 6 5000 1004999).error =
        some "No hay saldo suficiente para cubrir el monto y las comisiones.") :=
  ⟨(insufficient_funds_boundary initialSendFormState _ 1 6 5000 1005000 rfl (by decide)
      (by norm_num)).1 (by norm_num [jsRound]),
    (insufficient_funds_boundary initialSendFormState _ 1 6 5000 1004999 rfl (by decide)
      (by norm_num)).2 (by norm_num [jsRound])⟩

/-! ### C9: no broadcast without the confirmation gate -/

theorem runForm_append (hasClient : Bool) (decimals : ℕ) (evs : List FormEvent)
    (e : FormEvent) :
    runForm hasClient decimals (evs ++ [e]) =
      (stepForm hasClient decimals (runForm hasClient decimals evs) e).1 := by
  simp [runForm, List.foldl_append]

/-- Either `prepareSend` succeeded (no error, confirmation step shown), or it
left the confirmation flag exactly as it was. -/
theorem prepareSend_cases (st : SendFormState) (hasClient : Bool) (d : String)
    (a : Option ℚ) (decimals feeBase : ℕ) (av : ℤ) :
    ((prepareSend st hasClient d a decimals feeBase av).error = none ∧
      (prepareSend st hasClient d a decimals feeBase av).showConfirm = true) ∨
    (prepareSend st hasClient d a decimals feeBase av).showConfirm = st.showConfirm := by
  unfold prepareSend
  split
  · right; rfl
  · split
    · right; rfl
    · match a with
      | none => right; rfl
      | some q =>
        simp only
        split
        · right; rfl
        · split
          · right; rfl
          · left; exact ⟨rfl, rfl⟩

/-- `handleSend` never raises the confirmation flag. -/
theorem handleSend_showConfirm (st : SendFormState) (hasClient : Bool)
    (outcome : Except String DeliverTx)
    (h : (handleSend st hasClient outcome).1.showConfirm = true) :
    st.showConfirm = true := by
  rw [handleSend] at h
  split at h
  · exact h
  · match outcome with
    | .ok result =>
      simp only at h
      split at h
      · exact h
      · simp at h
    | .error msg => exact h

/-- Proposition: the event sequence contains a prepare that succeeded (ran in
its then-current state with no error and raised the confirmation step). -/
def prepareSucceededIn (hasClient : Bool) (decimals : ℕ) (evs : List FormEvent) : Prop :=
  ∃ pre d a f av post,
    evs = pre ++ FormEvent.prepareClick d a f av :: post ∧
      (prepareSend (runForm hasClient decimals pre) hasClient d a decimals f av).error =
        none ∧
      (prepareSend (runForm hasClient decimals pre) hasClient d a decimals f av).showConfirm =
        true

/-- Invariant: the confirmation step is visible only after some successful
prepare. -/
theorem showConfirm_implies_prepared (hasClient : Bool) (decimals : ℕ)
    (evs : List FormEvent)
    (h : (runForm hasClient decimals evs).showConfirm = true) :
    prepareSucceededIn hasClient decimals evs := by
  induction evs using List.reverseRecOn with
  | nil => exact absurd h (by simp [runForm, initialSendFormState])
  | append_singleton pre e ih =>
    rw [runForm_append] at h
    match e with
    | .prepareClick d a f av =>
      rcases prepareSend_cases (runForm hasClient decimals pre) hasClient d a decimals f av
        with hok | hkeep
      · exact ⟨pre, d, a, f, av, [], rfl, hok.1, hok.2⟩
      · rw [stepForm] at h
        simp only at h
        rw [hkeep] at h
        obtain ⟨p, d', a', f', av', post, hsplit, he, hc⟩ := ih h
        exact ⟨p, d', a', f', av', post ++ [FormEvent.prepareClick d a f av],
          by rw [hsplit]; simp, he, hc⟩
    | .confirmClick outcome =>
      rw [stepForm] at h
      have hprev : (runForm hasClient decimals pre).showConfirm = true := by
        split at h
        · exact handleSend_showConfirm _ _ _ h
        · exact h
      obtain ⟨p, d', a', f', av', post, hsplit, he, hc⟩ := ih hprev
      exact ⟨p, d', a', f', av', post ++ [FormEvent.confirmClick outcome],
        by rw [hsplit]; simp, he, hc⟩
    | .cancelClick => simp [stepForm] at h
    | .resetClick => simp [stepForm, initialSendFormState] at h

/-- C9.  The broadcast (`client.sendTokens`) is issued only by a click of the
"Confirmar y enviar" button, which exists only while the confirmation step
is shown, and the confirmation step is shown only after a successful
prepare: every event that issues a broadcast happens in a state with
`showConfirm` set, via a `confirmClick`, after some prepare succeeded
earlier in the trace. -/
theorem broadcast_requires_confirmed_prepare (hasClient : Bool) (decimals : ℕ)
    (evs : List FormEvent) (e : FormEvent)
    (hb : (stepForm hasClient decimals (runForm hasClient decimals evs) e).2 = true) :
    (runForm hasClient decimals evs).showConfirm = true ∧
      (∃ outcome, e = FormEvent.confirmClick outcome) ∧
      prepareSucceededIn hasClient decimals evs := by
  match e with
  | .prepareClick d a f av => simp [stepForm] at hb
  | .cancelClick => simp [stepForm] at hb
  | .resetClick => simp [stepForm] at hb
  | .confirmClick outcome =>
    rw [stepForm] at hb
    by_cases hsc : (runForm hasClient decimals evs).showConfirm
    · exact ⟨hsc, ⟨outcome, rfl⟩, showConfirm_implies_prepared hasClient decimals evs hsc⟩
    · rw [if_neg hsc] at hb
      simp at hb

/-- C9 witness at a concrete trace: a successful prepare followed by a
confirm click that issues the broadcast. -/
theorem broadcast_requires_confirmed_prepare_witness :
    (runForm true 6 [FormEvent.prepareClick
        "cosmos1qqqqqqqqqqqqqqqqqqqqqqqqqqqqqqqqqqqqqq" (some 1) 5000 1005000]).showConfirm =
        true ∧
      (∃ outcome, FormEvent.confirmClick (Except.ok ⟨0, "h", ""⟩) =
        FormEvent.confirmClick outcome) ∧
      prepareSucceededIn true 6 [FormEvent.prepareClick
        "cosmos1qqqqqqqqqqqqqqqqqqqqqqqqqqqqqqqqqqqqqq" (some 1) 5000 1005000] := by
  apply broadcast_requires_confirmed_prepare
  have haddr : isValidAddress "cosmos1qqqqqqqqqqqqqqqqqqqqqqqqqqqqqqqqqqqqqq" = true := by
    decide
  have hrun : (runForm true 6 [FormEvent.prepareClick
      "cosmos1qqqqqqqqqqqqqqqqqqqqqqqqqqqqqqqqqqqqqq" (some 1) 5000 1005000]).showConfirm =
      true := by
    norm_num [runForm, stepForm, prepareSend, haddr, jsRound]
  rw [stepForm, if_pos hrun, handleSend]
  simp

/-! ### C7: mnemonic normalization in `createSignerFromMnemonic` -/

theorem char_eq_of_toNat_eq {c d : Char} (h : c.toNat = d.toNat) : c = d :=
  Char.ext (UInt32.ext h)

theorem isWs_iff_toNat (c : Char) :
    isWs c = true ↔ (c.toNat = 32 ∨ c.toNat = 9 ∨ c.toNat = 10 ∨ c.toNat = 13) := by
  constructor
  · intro h
    simp [isWs, beq_iff_eq] at h
    rcases h with ((rfl | rfl) | rfl) | rfl <;> decide
  · intro h
    rcases h with h | h | h | h
    · rw [char_eq_of_toNat_eq (show c.toNat = (' ' : Char).toNat from h)]; rfl
    · rw [char_eq_of_toNat_eq (show c.toNat = ('\t' : Char).toNat from h)]; rfl
    · rw [char_eq_of_toNat_eq (show c.toNat = ('\n' : Char).toNat from h)]; rfl
    · rw [char_eq_of_toNat_eq (show c.toNat = ('\r' : Char).toNat from h)]; rfl

/-- Lowercasing preserves the whitespace class: the source's
`.toLowerCase()` step does not create or destroy whitespace, so it commutes
with trimming and collapsing. -/
theorem isWs_toLower (c : Char) : isWs c.toLower = isWs c := by
  by_cases h : c.toNat ≥ 65 ∧ c.toNat ≤ 90
  · have hlow : (Char.toLower c).toNat = c.toNat + 32 := by
      simp only [Char.toLower, h, and_true, if_pos, ge_iff_le, h.1, h.2]
      exact toNat_ofNat_valid (Or.inl (by omega))
    have h1 : isWs c.toLower = false := by
      rw [← Bool.not_eq_true]
      rw [isWs_iff_toNat, hlow]
      omega
    have h2 : isWs c = false := by
      rw [← Bool.not_eq_true]
      rw [isWs_iff_toNat]
      omega
    rw [h1, h2]
  · have : Char.toLower c = c := by
      simp only [Char.toLower]
      rw [if_neg]
      intro hc
      exact h ⟨hc.1, hc.2⟩
    rw [this]

/-! #### List helper lemmas for the normalization proof -/

theorem dropWhile_append_of_all {α : Type} (p : α → Bool) (z w : List α)
    (h : ∀ c ∈ z, p c) : (z ++ w).dropWhile p = w.dropWhile p := by
  induction z with
  | nil => rfl
  | cons x z ih =>
    rw [List.cons_append, List.dropWhile_cons, if_pos (h x (by simp))]
    exact ih fun c hc => h c (by simp [hc])

theorem dropWhile_eq_nil_of_all {α : Type} (p : α → Bool) (z : List α)
    (h : ∀ c ∈ z, p c) : z.dropWhile p = [] := by
  have := dropWhile_append_of_all p z [] h
  simpa using this

theorem dropWhile_append_of_exists {α : Type} (p : α → Bool) (z w : List α)
    (h : ∃ c ∈ z, ¬ p c) : (z ++ w).dropWhile p = z.dropWhile p ++ w := by
  induction z with
  | nil => simp at h
  | cons x z ih =>
    by_cases hx : p x
    · rw [List.cons_append, List.dropWhile_cons, if_pos hx, List.dropWhile_cons, if_pos hx]
      apply ih
      obtain ⟨c, hc, hpc⟩ := h
      rcases List.mem_cons.mp hc with rfl | hc'
      · exact absurd hx hpc
      · exact ⟨c, hc', hpc⟩
    · rw [List.cons_append, List.dropWhile_cons, if_neg hx, List.dropWhile_cons, if_neg hx,
        List.cons_append]

theorem dropWhile_cons_of_neg {α : Type} (p : α → Bool) (x : α) (z : List α)
    (h : ¬ p x) : (x :: z).dropWhile p = x :: z := by
  rw [List.dropWhile_cons, if_neg h]

theorem head_dropWhile_neg {α : Type} (p : α → Bool) (l : List α) (x : α) (xs : List α)
    (h : l.dropWhile p = x :: xs) : ¬ p x := by
  induction l with
  | nil => simp [List.dropWhile] at h
  | cons y t ih =>
    rw [List.dropWhile_cons] at h
    by_cases hy : p y
    · rw [if_pos hy] at h
      exact ih h
    · rw [if_neg hy] at h
      cases h
      exact hy

theorem dropTrailWs_append_of_all (a b : List Char) (h : ∀ c ∈ b, isWs c) :
    dropTrailWs (a ++ b) = dropTrailWs a := by
  rw [dropTrailWs, dropTrailWs, List.reverse_append,
    dropWhile_append_of_all isWs b.reverse a.reverse (fun c hc => h c (by simpa using hc))]

theorem dropTrailWs_append_of_exists (a b : List Char) (h : ∃ c ∈ b, ¬ isWs c) :
    dropTrailWs (a ++ b) = a ++ dropTrailWs b := by
  obtain ⟨c, hc, hpc⟩ := h
  rw [dropTrailWs, dropTrailWs, List.reverse_append,
    dropWhile_append_of_exists isWs b.reverse a.reverse ⟨c, by simpa using hc, hpc⟩,
    List.reverse_append, List.reverse_reverse]

theorem dropTrailWs_of_all_not (a : List Char) (h : ∀ c ∈ a, ¬ isWs c) :
    dropTrailWs a = a := by
  rw [dropTrailWs]
  cases ha : a.reverse with
  | nil => simpa using congrArg List.reverse ha
  | cons x t =>
    have hx : ¬ isWs x := h x (by
      have : x ∈ a.reverse := by rw [ha]; simp
      simpa using this)
    rw [dropWhile_cons_of_neg isWs x t hx, ← ha, List.reverse_reverse]

theorem dropTrailWs_nil_of_all (a : List Char) (h : ∀ c ∈ a, isWs c) :
    dropTrailWs a = [] := by
  have := dropTrailWs_append_of_all [] a h
  simpa [dropTrailWs] using this

/-- Removal of leading whitespace after removal of trailing whitespace of a
list whose head is not whitespace changes nothing. -/
theorem dropWhile_dropTrailWs_of_head (x : Char) (t : List Char) (hx : ¬ isWs x) :
    (dropTrailWs (x :: t)).dropWhile isWs = dropTrailWs (x :: t) := by
  by_cases hex : ∃ c ∈ t, ¬ isWs c
  · have : dropTrailWs (x :: t) = x :: dropTrailWs t := by
      have := dropTrailWs_append_of_exists [x] t hex
      simpa using this
    rw [this, dropWhile_cons_of_neg isWs x _ hx]
  · push_neg at hex
    have h1 : dropTrailWs (x :: t) = dropTrailWs [x] := by
      have := dropTrailWs_append_of_all [x] t (by simpa using hex)
      simpa using this
    have h2 : dropTrailWs [x] = [x] :=
      dropTrailWs_of_all_not [x] (by simpa using hx)
    rw [h1, h2, dropWhile_cons_of_neg isWs x [] hx]

/-- Leading-whitespace removal and trailing-whitespace removal commute. -/
theorem dropWhile_dropTrailWs_comm (z : List Char) :
    (dropTrailWs z).dropWhile isWs = dropTrailWs (z.dropWhile isWs) := by
  by_cases hall : ∀ c ∈ z, isWs c
  · rw [dropTrailWs_nil_of_all z hall, dropWhile_eq_nil_of_all isWs z hall]
    rfl
  · push_neg at hall
    obtain ⟨w, hw, hnw⟩ := hall
    have hsplit : z.takeWhile isWs ++ z.dropWhile isWs = z :=
      List.takeWhile_append_dropWhile ..
    have htake : ∀ c ∈ z.takeWhile isWs, isWs c := fun c hc =>
      List.mem_takeWhile_imp hc
    have hzr : ∃ c ∈ z.dropWhile isWs, ¬ isWs c := by
      have hw' : w ∈ z.takeWhile isWs ++ z.dropWhile isWs := by rw [hsplit]; exact hw
      rcases List.mem_append.mp hw' with h | h
      · exact absurd (htake w h) hnw
      · exact ⟨w, h, hnw⟩
    have hstep1 : dropTrailWs z = z.takeWhile isWs ++ dropTrailWs (z.dropWhile isWs) := by
      conv_lhs => rw [← hsplit]
      exact dropTrailWs_append_of_exists _ _ hzr
    rw [hstep1, dropWhile_append_of_all isWs _ _ htake]
    cases hzr' : z.dropWhile isWs with
    | nil => simp [hzr'] at hzr
    | cons x t =>
      have hx : ¬ isWs x := head_dropWhile_neg isWs z x t hzr'
      rw [← hzr']
      rw [hzr'] at hzr ⊢
      exact dropWhile_dropTrailWs_of_head x t hx

/-- Model of `.replace(/\s+/g, ' ')`: every maximal run of whitespace is
replaced by a single space. -/
def collapseWs : List Char → List Char
  | [] => []
  | [c] => if isWs c then [' '] else [c]
  | c :: d :: t =>
    if isWs c && isWs d then collapseWs (d :: t)
    else (if isWs c then ' ' else c) :: collapseWs (d :: t)

theorem collapseWs_cons_of_neg (x : Char) (r : List Char) (hx : ¬ isWs x) :
    collapseWs (x :: r) = x :: collapseWs r := by
  cases r with
  | nil => simp [collapseWs, hx]
  | cons y t =>
    rw [collapseWs]
    have : (isWs x && isWs y) = false := by simp [hx]
    rw [this]
    simp [hx]

theorem collapseWs_append_of_all_not (a z : List Char) (h : ∀ c ∈ a, ¬ isWs c) :
    collapseWs (a ++ z) = a ++ collapseWs z := by
  induction a with
  | nil => rfl
  | cons x a ih =>
    rw [List.cons_append, collapseWs_cons_of_neg x _ (h x (by simp)),
      ih fun c hc => h c (by simp [hc])]
    rfl

theorem collapseWs_of_all_not (a : List Char) (h : ∀ c ∈ a, ¬ isWs c) :
    collapseWs a = a := by
  have := collapseWs_append_of_all_not a [] h
  simpa [collapseWs] using this

theorem collapseWs_cons_of_ws (d : Char) (z : List Char) (hd : isWs d) :
    collapseWs (d :: z) = ' ' :: collapseWs (z.dropWhile isWs) := by
  induction z generalizing d with
  | nil => simp [collapseWs, hd]
  | cons e z' ih =>
    by_cases he : isWs e
    · rw [collapseWs]
      have : (isWs d && isWs e) = true := by simp [hd, he]
      rw [this]
      simp only [if_pos]
      rw [ih e he, List.dropWhile_cons, if_pos he]
    · rw [collapseWs]
      have hb : (isWs d && isWs e) = false := by simp [he]
      rw [hb, if_neg (by simp), if_pos hd, List.dropWhile_cons, if_neg he]

/-- Accumulator-based splitting of a character list into its maximal
whitespace-free words. -/
def wordsGo : List Char → List Char → List (List Char)
  | [], acc => if acc = [] then [] else [acc.reverse]
  | c :: t, acc =>
    if isWs c then (if acc = [] then wordsGo t [] else acc.reverse :: wordsGo t [])
    else wordsGo t (c :: acc)

/-- Word sequence of a character list. -/
def wordsL (l : List Char) : List (List Char) := wordsGo l []

theorem wordsL_cons_of_ws (c : Char) (t : List Char) (hc : isWs c) :
    wordsL (c :: t) = wordsL t := by
  rw [wordsL, wordsGo, if_pos hc, if_pos rfl]
  rfl

theorem wordsGo_acc (t : List Char) (acc : List Char) (hacc : acc ≠ []) :
    wordsGo t acc =
      (acc.reverse ++ t.takeWhile (fun x => !isWs x)) ::
        wordsL (t.dropWhile (fun x => !isWs x)) := by
  induction t generalizing acc with
  | nil => simp [wordsGo, hacc, wordsL]
  | cons c t ih =>
    by_cases hc : isWs c
    · rw [wordsGo, if_pos hc, if_neg hacc]
      have h1 : (c :: t).takeWhile (fun x => !isWs x) = [] := by
        rw [List.takeWhile_cons, if_neg (by simp [hc])]
      have h2 : (c :: t).dropWhile (fun x => !isWs x) = c :: t := by
        rw [List.dropWhile_cons, if_neg (by simp [hc])]
      rw [h1, h2, List.append_nil]
      rw [wordsL_cons_of_ws c t hc]
      rfl
    · rw [wordsGo, if_neg (by simp [hc]), ih (c :: acc) (by simp)]
      have h1 : (c :: t).takeWhile (fun x => !isWs x) =
          c :: t.takeWhile (fun x => !isWs x) := by
        rw [List.takeWhile_cons, if_pos (by simp [hc])]
      have h2 : (c :: t).dropWhile (fun x => !isWs x) =
          t.dropWhile (fun x => !isWs x) := by
        rw [List.dropWhile_cons, if_pos (by simp [hc])]
      rw [h1, h2]
      simp

theorem wordsL_cons_of_neg (c : Char) (t : List Char) (hc : ¬ isWs c) :
    wordsL (c :: t) =
      (c :: t.takeWhile (fun x => !isWs x)) ::
        wordsL (t.dropWhile (fun x => !isWs x)) := by
  rw [wordsL, wordsGo, if_neg (by simp [hc]), wordsGo_acc t [c] (by simp)]
  rfl

theorem wordsL_nil_iff (l : List Char) : wordsL l = [] ↔ ∀ c ∈ l, isWs c := by
  induction l with
  | nil => simp [wordsL, wordsGo]
  | cons c t ih =>
    by_cases hc : isWs c
    · rw [wordsL_cons_of_ws c t hc]
      simp [hc, ih]
    · rw [wordsL_cons_of_neg c t hc]
      simp [hc]

/-- Words joined by single spaces. -/
def joinWords : List (List Char) → List Char
  | [] => []
  | [w] => w
  | w :: v :: ws => w ++ ' ' :: joinWords (v :: ws)

theorem joinWords_cons (w : List Char) (ws : List (List Char)) (h : ws ≠ []) :
    joinWords (w :: ws) = w ++ ' ' :: joinWords ws := by
  cases ws with
  | nil => exact absurd rfl h
  | cons v ws' => rfl

/-- Collapsing whitespace after trimming produces exactly the
single-space-joined word sequence (bounded-length version for the
induction). -/
theorem collapseWs_trimL_bounded (n : ℕ) : ∀ l : List Char, l.length ≤ n →
    collapseWs (trimL l) = joinWords (wordsL l) := by
  induction n with
  | zero =>
    intro l hl
    have : l = [] := List.length_eq_zero.mp (Nat.le_zero.mp hl)
    subst this
    rfl
  | succ n ih =>
    intro l hl
    cases l with
    | nil => rfl
    | cons c t =>
      by_cases hc : isWs c
      · have ht : trimL (c :: t) = trimL t := by
          rw [trimL, List.dropWhile_cons, if_pos hc]
          rfl
        rw [ht, wordsL_cons_of_ws c t hc]
        exact ih t (by simp only [List.length_cons] at hl; omega)
      · have htrim : trimL (c :: t) = dropTrailWs (c :: t) := by
          rw [trimL, List.dropWhile_cons, if_neg hc]
        rw [htrim, wordsL_cons_of_neg c t hc]
        have hsplit : t.takeWhile (fun x => !isWs x) ++ t.dropWhile (fun x => !isWs x) = t :=
          List.takeWhile_append_dropWhile ..
        have htokall : ∀ x ∈ c :: t.takeWhile (fun x => !isWs x), ¬ isWs x := by
          intro x hx
          rcases List.mem_cons.mp hx with rfl | hx'
          · exact hc
          · have := List.mem_takeWhile_imp hx'
            simpa using this
        by_cases hrw : wordsL (t.dropWhile (fun x => !isWs x)) = []
        · have hrall : ∀ x ∈ t.dropWhile (fun x => !isWs x), isWs x :=
            (wordsL_nil_iff _).mp hrw
          rw [hrw]
          have h1 : dropTrailWs (c :: t) =
              dropTrailWs (c :: t.takeWhile (fun x => !isWs x)) := by
            conv_lhs => rw [← hsplit]
            exact dropTrailWs_append_of_all (c :: t.takeWhile (fun x => !isWs x)) _ hrall
          rw [h1, dropTrailWs_of_all_not _ htokall, collapseWs_of_all_not _ htokall]
          rfl
        · have hrex : ∃ x ∈ t.dropWhile (fun x => !isWs x), ¬ isWs x := by
            by_contra hno
            push_neg at hno
            exact hrw ((wordsL_nil_iff _).mpr hno)
          rw [joinWords_cons _ _ hrw]
          have h1 : dropTrailWs (c :: t) =
              (c :: t.takeWhile (fun x => !isWs x)) ++
                dropTrailWs (t.dropWhile (fun x => !isWs x)) := by
            conv_lhs => rw [← hsplit]
            exact dropTrailWs_append_of_exists (c :: t.takeWhile (fun x => !isWs x)) _ hrex
          rw [h1, collapseWs_append_of_all_not _ _ htokall]
          congr 1
          cases hr : t.dropWhile (fun x => !isWs x) with
          | nil => rw [hr] at hrex; simp at hrex
          | cons d rest' =>
            have hd : isWs d := by
              have := head_dropWhile_neg (fun x => !isWs x) t d rest' hr
              simpa using this
            have hrex' : ∃ x ∈ rest', ¬ isWs x := by
              rw [hr] at hrex
              obtain ⟨x, hx, hnx⟩ := hrex
              rcases List.mem_cons.mp hx with rfl | hx'
              · exact absurd hd hnx
              · exact ⟨x, hx', hnx⟩
            have h2 : dropTrailWs (d :: rest') = d :: dropTrailWs rest' := by
              have := dropTrailWs_append_of_exists [d] rest' hrex'
              simpa using this
            rw [h2, collapseWs_cons_of_ws d _ hd, wordsL_cons_of_ws d rest' hd]
            congr 1
            rw [dropWhile_dropTrailWs_comm rest']
            have hlen' : rest'.length ≤ n := by
              have hdw : (t.dropWhile (fun x => !isWs x)).length ≤ t.length :=
                (List.dropWhile_sublist _).length_le
              rw [hr] at hdw
              simp only [List.length_cons] at hdw hl
              omega
            exact ih rest' hlen'

/-- Collapsing whitespace after trimming produces exactly the
single-space-joined word sequence. -/
theorem collapseWs_trimL (l : List Char) :
    collapseWs (trimL l) = joinWords (wordsL l) :=
  collapseWs_trimL_bounded l.length l le_rfl

theorem map_toLower_dropTrailWs (x : List Char) :
    dropTrailWs (x.map Char.toLower) = (dropTrailWs x).map Char.toLower := by
  have hcomp : isWs ∘ Char.toLower = isWs := funext isWs_toLower
  rw [dropTrailWs, dropTrailWs, ← List.map_reverse, List.dropWhile_map, hcomp,
    List.map_reverse]

/-- Trimming commutes with lowercasing. -/
theorem trimL_map_toLower (l : List Char) :
    trimL (l.map Char.toLower) = (trimL l).map Char.toLower := by
  have hcomp : isWs ∘ Char.toLower = isWs := funext isWs_toLower
  rw [trimL, trimL, List.dropWhile_map, hcomp, map_toLower_dropTrailWs]

/-- Source: `const normalized = mnemonic.trim().toLowerCase().replace(/\s+/g, ' ')`
in `createSignerFromMnemonic`. -/
def normalizeMnemonic (mnemonic : String) : String :=
  String.mk (collapseWs ((trimL mnemonic.data).map Char.toLower))

/-- Sequence of lowercased whitespace-separated words of a string: two
inputs that differ only in leading/trailing whitespace, internal whitespace
runs, or letter case have the same `lowerWords`. -/
def lowerWords (s : String) : List (List Char) := wordsL (s.data.map Char.toLower)

theorem normalizeMnemonic_eq_joinWords (m : String) :
    normalizeMnemonic m = String.mk (joinWords (lowerWords m)) := by
  rw [normalizeMnemonic, lowerWords, ← trimL_map_toLower, collapseWs_trimL]

/-- External collaborators of `createSignerFromMnemonic`: `validateMnemonic`
from the `bip39` package, and the address derived by
`DirectSecp256k1HdWallet.fromMnemonic(...)` followed by
`(await signer.getAccounts())[0]?.address ?? ''` (both deterministic
functions of the normalized phrase; BIP39 checksum validation and
secp256k1/bech32 derivation are outside the repository). -/
structure SignerEnv where
  validateMnemonic : String → Bool
  hdAddress : String → String

/-- Result of a successful signer construction (the in-memory `signer`
object itself is determined by the same normalized phrase and is omitted). -/
structure SignerResult where
  address : String
  secrets : StoredSecrets
  type : WalletSource
deriving DecidableEq

/-- Source: `createSignerFromMnemonic(mnemonic)` of `lib/wallet.ts`; thrown
`Error`s are modelled as `Except.error` with the source's message. -/
def createSignerFromMnemonic (E : SignerEnv) (mnemonic : String) :
    Except String SignerResult :=
  let normalized := normalizeMnemonic mnemonic
  if ¬E.validateMnemonic normalized then
    .error "Mnemonic inválido — revisá las palabras y los espacios."
  else
    let address := E.hdAddress normalized
    if address = "" then .error "No se pudo derivar la dirección de la wallet."
    else
      .ok { address := address
            secrets := { mnemonic := some normalized, privateKeyHex := none }
            type := .mnemonic }

/-- C7.  Signer construction from a mnemonic is deterministic (it is a pure
function of its input) and normalization-insensitive: any two raw phrases
with the same sequence of lowercased whitespace-separated words — i.e.
phrases differing only in leading/trailing whitespace, internal whitespace
runs, or letter case — produce identical results (same address, same stored
secrets, same kind), because the input is trimmed, lowercased and
whitespace-collapsed before BIP39 validation and key derivation. -/
theorem fromMnemonic_normalization (E : SignerEnv) (m₁ m₂ : String)
    (h : lowerWords m₁ = lowerWords m₂) :
    createSignerFromMnemonic E m₁ = createSignerFromMnemonic E m₂ := by
  have hnorm : normalizeMnemonic m₁ = normalizeMnemonic m₂ := by
    rw [normalizeMnemonic_eq_joinWords, normalizeMnemonic_eq_joinWords, h]
  rw [createSignerFromMnemonic, createSignerFromMnemonic, hnorm]

/-- Environment used by the C7 witness. -/
def testSignerEnv : SignerEnv :=
  { validateMnemonic := fun _ => true, hdAddress := fun _ => "cosmos1testaddress" }

/-- C7 witness at concrete inputs differing in case, leading/trailing
whitespace and an internal whitespace run. -/
theorem fromMnemonic_normalization_witness :
    createSignerFromMnemonic testSignerEnv "Abandon  ABILITY" =
      createSignerFromMnemonic testSignerEnv " abandon ability " :=
  fromMnemonic_normalization testSignerEnv _ _ (by decide)

/-! ### C8: renaming a stored wallet -/

/-- Modelled from the spec: the persisted record format of §6 with the
optional user-chosen `name` label, as used by the multi-wallet application
variant (`handleRenameStoredWallet` in the source); the wallet-library
module defining this extended shape and its `persistWallet` is not among
the provided source files, so the shape follows the spec's record format. -/
structure StoredWalletRecord where
  address : String
  type : WalletSource
  ciphertext : String
  iv : String
  salt : String
  name : Option String
deriving DecidableEq, Repr

/-- Source: `handleRenameStoredWallet(address)` of the multi-wallet `App`
variant.  `promptResult` is what `window.prompt` returned (`none` when the
user cancelled, modelling `?? undefined`).  The result is the updated
`storedWallets` list together with the record passed to `persistWallet`
(`none` when nothing is persisted: unknown address, cancelled prompt, or
unchanged name).  `normalized` is `trimmed || undefined`. -/
def handleRenameStoredWallet (storedWallets : List StoredWalletRecord)
    (address : String) (promptResult : Option String) :
    List StoredWalletRecord × Option StoredWalletRecord :=
  match storedWallets.find? (fun item => item.address == address) with
  | none => (storedWallets, none)
  | some target =>
    match promptResult with
    | none => (storedWallets, none)
    | some nextName =>
      let trimmed := jsTrim nextName
      let normalized := if trimmed = "" then none else some trimmed
      if target.name = normalized then (storedWallets, none)
      else
        let updated : StoredWalletRecord := { target with name := normalized }
        (storedWallets.map fun item => if item.address == address then updated else item,
          some updated)

/-- C8.  Renaming touches only the label: whenever the rename handler
re-saves a record, that record agrees with the found target record on
`address`, `type`, `ciphertext`, `iv` and `salt` byte-for-byte — only the
`name` field changes, and no re-encryption occurs. -/
theorem rename_preserves_encryption (storedWallets : List StoredWalletRecord)
    (address : String) (promptResult : Option String) (r : StoredWalletRecord)
    (h : (handleRenameStoredWallet storedWallets address promptResult).2 = some r) :
    ∃ target, storedWallets.find? (fun item => item.address == address) = some target ∧
      r.address = target.address ∧ r.type = target.type ∧
      r.ciphertext = target.ciphertext ∧ r.iv = target.iv ∧ r.salt = target.salt := by
  rw [handleRenameStoredWallet] at h
  cases hf : storedWallets.find? (fun item => item.address == address) with
  | none => rw [hf] at h; simp at h
  | some target =>
    rw [hf] at h
    cases promptResult with
    | none => simp at h
    | some nextName =>
      simp only at h
      split at h
      all_goals
        split at h
        · simp at h
        · simp only [Option.some_inj] at h
          exact ⟨target, rfl, by rw [← h], by rw [← h], by rw [← h], by rw [← h],
            by rw [← h]⟩

/-- C8 witness at a concrete input. -/
theorem rename_preserves_encryption_witness :
    ∃ target,
      [({ address := "a1", type := .mnemonic, ciphertext := "c1", iv := "i1", salt := "s1",
          name := none } : StoredWalletRecord)].find?
          (fun item => item.address == "a1") = some target ∧
      (({ address := "a1", type := .mnemonic, ciphertext := "c1", iv := "i1", salt := "s1",
          name := some "My wallet" } : StoredWalletRecord)).address = target.address ∧
      (({ address := "a1", type := .mnemonic, ciphertext := "c1", iv := "i1", salt := "s1",
          name := some "My wallet" } : StoredWalletRecord)).type = target.type ∧
      (({ address := "a1", type := .mnemonic, ciphertext := "c1", iv := "i1", salt := "s1",
          name := some "My wallet" } : StoredWalletRecord)).ciphertext = target.ciphertext ∧
      (({ address := "a1", type := .mnemonic, ciphertext := "c1", iv := "i1", salt := "s1",
          name := some "My wallet" } : StoredWalletRecord)).iv = target.iv ∧
      (({ address := "a1", type := .mnemonic, ciphertext := "c1", iv := "i1", salt := "s1",
          name := some "My wallet" } : StoredWalletRecord)).salt = target.salt :=
  rename_preserves_encryption _ "a1" (some "My wallet") _ (by decide)
